import Mathlib

/-!
Shallow embedding of the archive extraction and inspection engine of
`src/main.rs` (uncompress-tool): the entry classifier `get_file_type`, the
listing routine `list_archive_contents`, and the two extraction routines
`extract_zip` and `extract_tar_gz`, together with the extension dispatch
performed by the GUI update handler.  Filesystem and channel side effects are
modelled as an explicit trace of `Action`s; progress fractions are modelled as
exact numerator/denominator pairs (the code computes `(i+1)/total` in `f32`),
with `fracVal` giving their rational value.
-/

namespace UnzipTool

/-! ### Character-level string helpers (models of the Rust std functions used) -/

/-- Model of Rust `str::split(c)`: splits a character list at every occurrence
of `c`, keeping empty segments, so the result is always nonempty
(`split('.')` on `"abc"` gives `["abc"]`, on `""` gives `[""]`). -/
def splitChar (c : Char) : List Char → List (List Char)
  | [] => [[]]
  | x :: xs =>
    if x = c then [] :: splitChar c xs
    else
      match splitChar c xs with
      | [] => [[x]]
      | s :: ss => (x :: s) :: ss

/-- The suffix after the last occurrence of `c`, or the whole list when `c`
does not occur.  This is the value of `split(c).last()` in Rust. -/
def afterLast (c : Char) : List Char → List Char
  | [] => []
  | x :: xs => if c ∈ xs then afterLast c xs else if x = c then xs else x :: xs

/-- Model of Rust `str::ends_with(c)` for a single character. -/
def endsWithChar (s : String) (c : Char) : Bool :=
  decide (s.data.getLast? = some c)

/-- Model of Rust `str::ends_with(suffix)` for a string suffix. -/
def endsWithStr (s suffix : String) : Bool :=
  suffix.data.isSuffixOf s.data

/-! ### The entry classifier (`get_file_type`, src/main.rs lines 353-368) -/

/-- The match arms of `get_file_type` on `filename.split('.').last()`,
verbatim from src/main.rs lines 358-367. -/
def extMatchOpt (o : Option String) : String :=
  match o with
  | some "txt" => "text"
  | some "jpg" | some "jpeg" | some "png" | some "gif" => "image"
  | some "pdf" => "pdf"
  | some "zip" | some "gz" | some "tar" => "archive"
  | some "mp3" | some "wav" => "audio"
  | some "mp4" | some "avi" => "video"
  | some "exe" => "executable"
  | _ => "file"

/-- `get_file_type` from src/main.rs: `"folder"` for names ending in `'/'`,
otherwise the result of matching `filename.split('.').last()` against the
fixed extension table, with `"file"` (Generic) as the default. -/
def get_file_type (filename : String) : String :=
  if endsWithChar filename '/' then "folder"
  else extMatchOpt (((splitChar '.' filename.data).getLast?).map List.asString)

/-- The fixed extension table as a function of the matched segment. -/
def extTable (seg : String) : String :=
  extMatchOpt (some seg)

/-- Spec-side classifier for the amended classification claim: names ending in
a path separator are folders; otherwise the last `'.'`-separated segment of the
name — which is the whole name when it contains no `'.'` — is matched
case-sensitively against the extension table. -/
def classifySpec (name : String) : String :=
  if endsWithChar name '/' then "folder"
  else extTable (afterLast '.' name.data).asString

/-! ### Paths

Paths are modelled in component form: an absolute flag plus the list of
`'/'`-separated components.  `FsPath.join` models Rust `PathBuf::join`
(an absolute right operand replaces the base). -/

/-- A filesystem path: absolute flag and `'/'`-separated components. -/
structure FsPath where
  absolute : Bool
  comps : List String
deriving DecidableEq

/-- Parse an entry-name string into a path, as-is: a leading `'/'` makes it
absolute, empty components are dropped, `".."` and `"."` are kept. -/
def parsePath (s : String) : FsPath :=
  FsPath.mk (decide (s.data.head? = some '/'))
    (((splitChar '/' s.data).map List.asString).filter (fun comp => comp != ""))

/-- Model of the zip crate's `ZipFile::mangled_name` (`file_name_sanitized`):
truncate the raw name at the first NUL byte, then keep only normal path
components — root, `"."` and `".."` components are dropped, so the result is
always a relative path that cannot traverse upwards. -/
def mangledName (name : String) : FsPath :=
  FsPath.mk false
    (((splitChar '/' (name.data.takeWhile (fun ch => ch != Char.ofNat 0))).map
        List.asString).filter
      (fun comp => !(comp == "" || comp == "." || comp == "..")))

/-- Model of Rust `PathBuf::join`: an absolute path replaces the base. -/
def FsPath.join (base p : FsPath) : FsPath :=
  if p.absolute then p else FsPath.mk base.absolute (base.comps ++ p.comps)

/-- Model of Rust `Path::parent`: drop the last component. -/
def FsPath.parentDir? (p : FsPath) : Option FsPath :=
  match p.comps with
  | [] => none
  | _ => some (FsPath.mk p.absolute p.comps.dropLast)

/-- Lexically resolve `"."` and `".."` components against an accumulator. -/
def normStack (acc : List String) : List String → List String
  | [] => acc
  | comp :: rest =>
    if comp == "." then normStack acc rest
    else if comp == ".." then normStack acc.dropLast rest
    else normStack (acc ++ [comp]) rest

/-- Lexical normalization of a path (resolves `"."` and `".."`). -/
def FsPath.normalize (p : FsPath) : FsPath :=
  FsPath.mk p.absolute (normStack [] p.comps)

/-- `p` stays inside the subtree of `base` after lexical normalization. -/
def FsPath.isUnder (p base : FsPath) : Bool :=
  (p.normalize.absolute == base.normalize.absolute) &&
    decide (base.normalize.comps = p.normalize.comps.take base.normalize.comps.length)

/-- The on-disk path `extract_zip` resolves for an entry (src/main.rs line
316): `output_dir.join(file.mangled_name())`. -/
def zipOutPath (outDir : FsPath) (name : String) : FsPath :=
  outDir.join (mangledName name)

/-- The on-disk path `extract_tar_gz` resolves for an entry (src/main.rs line
448): `output_dir.join(entry.path()?)`, the raw entry path joined as-is. -/
def tarOutPath (outDir : FsPath) (path : String) : FsPath :=
  outDir.join (parsePath path)

/-- Model of Rust `Path::extension()`: the suffix after the last `'.'` of the
final path component, or none when that component has no `'.'` past its first
character. -/
def pathExtension (p : String) : Option String :=
  match afterLast '/' ((p.data.reverse.dropWhile (fun ch => ch == '/')).reverse) with
  | [] => none
  | ch :: rest =>
    if '.' ∈ rest then some (afterLast '.' (ch :: rest)).asString else none

/-! ### UTF-8 lossy decoding (model of `String::from_utf8_lossy`) -/

/-- The Unicode replacement character U+FFFD. -/
def replChar : Char := Char.ofNat 0xFFFD

/-- Is `b` a UTF-8 continuation byte? -/
def isContByte (b : Nat) : Bool := decide (0x80 ≤ b ∧ b ≤ 0xBF)

/-- Valid range for the first continuation byte of a 3-byte sequence. -/
def cont3Byte (b1 b2 : Nat) : Bool :=
  if b1 = 0xE0 then decide (0xA0 ≤ b2 ∧ b2 ≤ 0xBF)
  else if b1 = 0xED then decide (0x80 ≤ b2 ∧ b2 ≤ 0x9F)
  else isContByte b2

/-- Valid range for the first continuation byte of a 4-byte sequence. -/
def cont4Byte (b1 b2 : Nat) : Bool :=
  if b1 = 0xF0 then decide (0x90 ≤ b2 ∧ b2 ≤ 0xBF)
  else if b1 = 0xF4 then decide (0x80 ≤ b2 ∧ b2 ≤ 0x8F)
  else isContByte b2

/-- Model of Rust `String::from_utf8_lossy`: decode UTF-8 byte sequences,
replacing the leading byte of every invalid sequence with U+FFFD and
continuing; never fails.  (Replacement granularity for multi-byte garbage is
approximated per leading byte.) -/
def utf8Lossy : List Nat → List Char
  | [] => []
  | b1 :: rest =>
    if b1 < 0x80 then Char.ofNat b1 :: utf8Lossy rest
    else if 0xC2 ≤ b1 ∧ b1 ≤ 0xDF then
      match rest with
      | b2 :: rest2 =>
        if isContByte b2 then
          Char.ofNat ((b1 - 0xC0) * 0x40 + (b2 - 0x80)) :: utf8Lossy rest2
        else replChar :: utf8Lossy (b2 :: rest2)
      | [] => [replChar]
    else if 0xE0 ≤ b1 ∧ b1 ≤ 0xEF then
      match rest with
      | b2 :: b3 :: rest3 =>
        if cont3Byte b1 b2 && isContByte b3 then
          Char.ofNat ((b1 - 0xE0) * 0x1000 + (b2 - 0x80) * 0x40 + (b3 - 0x80))
            :: utf8Lossy rest3
        else replChar :: utf8Lossy (b2 :: b3 :: rest3)
      | short => replChar :: utf8Lossy short
    else if 0xF0 ≤ b1 ∧ b1 ≤ 0xF4 then
      match rest with
      | b2 :: b3 :: b4 :: rest4 =>
        if cont4Byte b1 b2 && isContByte b3 && isContByte b4 then
          Char.ofNat ((b1 - 0xF0) * 0x40000 + (b2 - 0x80) * 0x1000
              + (b3 - 0x80) * 0x40 + (b4 - 0x80)) :: utf8Lossy rest4
        else replChar :: utf8Lossy (b2 :: b3 :: b4 :: rest4)
      | short => replChar :: utf8Lossy short
    else replChar :: utf8Lossy rest

/-! ### Archive entries, jobs and effect traces -/

/-- One ZIP entry as the code sees it: raw name (directories end in `'/'`),
decompressed body bytes, and the declared size. -/
structure ZipEntry where
  name : String
  body : List Nat
  size : Nat
deriving DecidableEq

/-- One TAR entry: raw path, the header's directory flag, body bytes, size. -/
structure TarEntry where
  path : String
  isDir : Bool
  body : List Nat
  size : Nat
deriving DecidableEq

/-- An extraction/listing job together with the parts of the outside world the
code consults: the selected input path, the output directory, whether the
output directory's permission bits are read-only, whether opening/parsing the
archive fails, the entries the archive yields for each format, and the set of
paths that already exist on disk. -/
structure World where
  inputPath : String
  outDir : FsPath
  readOnly : Bool
  corrupt : Bool
  zipEntries : List ZipEntry
  tarEntries : List TarEntry
  fs0 : List FsPath

/-- One observable effect of the engine: filesystem metadata/stat of the
output directory, opening/reading the archive, directory/file writes, or a
`(fraction, finished)` progress event sent on the channel (the fraction kept
as the exact pair `num/den`). -/
inductive Action where
  | statOutput
  | openArchive
  | createDirAll (p : FsPath)
  | setPerms (p : FsPath)
  | createFile (p : FsPath)
  | writeBytes (p : FsPath) (bytes : List Nat)
  | readBody (name : String)
  | sendProgress (num den : Nat) (finished : Bool)
deriving DecidableEq

/-- Errors of the engine, per the spec's taxonomy. -/
inductive ExtractErr where
  | readOnlyOutput
  | unsupportedFormat
  | corruptArchive
deriving DecidableEq

/-- Is this action a progress event? -/
def Action.isProgress : Action → Bool
  | .sendProgress _ _ _ => true
  | _ => false

/-- Is this action a terminal (finished) progress event? -/
def Action.isFinished : Action → Bool
  | .sendProgress _ _ f => f
  | _ => false

/-- Is this action a non-terminal progress event? -/
def Action.isNonTerminal : Action → Bool
  | .sendProgress _ _ f => !f
  | _ => false

/-- Is this action a filesystem write (directory/file creation, permission
change, or byte write)? -/
def Action.isWriteAct : Action → Bool
  | .createDirAll _ => true
  | .setPerms _ => true
  | .createFile _ => true
  | .writeBytes _ _ => true
  | _ => false

/-- Is this action a read of the archive file? -/
def Action.isArchiveRead : Action → Bool
  | .openArchive => true
  | .readBody _ => true
  | _ => false

/-- The rational value of a progress fraction pair. -/
def fracVal (num den : Nat) : ℚ := (num : ℚ) / (den : ℚ)

/-- The fraction value carried by a progress action (0 for other actions). -/
def Action.fracOf : Action → ℚ
  | .sendProgress num den _ => fracVal num den
  | _ => 0

/-! ### `extract_zip` (src/main.rs lines 302-351) -/

/-- All prefixes of a path, the paths `create_dir_all` materializes. -/
def dirTreePaths (p : FsPath) : List FsPath :=
  (List.range (p.comps.length + 1)).map (fun k => FsPath.mk p.absolute (p.comps.take k))

/-- The ancestor-creation actions of the file branch (src/main.rs lines
325-332): if the parent does not exist, `create_dir_all` it and clear its
read-only bit. -/
def parentActs (fs : List FsPath) (outpath : FsPath) : List Action :=
  match outpath.parentDir? with
  | none => []
  | some par => if par ∈ fs then [] else [.createDirAll par, .setPerms par]

/-- Filesystem contents after the ancestor-creation step. -/
def fsAfterParent (fs : List FsPath) (outpath : FsPath) : List FsPath :=
  match outpath.parentDir? with
  | none => fs
  | some par => if par ∈ fs then fs else fs ++ dirTreePaths par

/-- The actions that materialize one ZIP entry itself (src/main.rs lines
318-341): directory branch creates the directory and clears its read-only
bit; file branch creates the file, clears its read-only bit, then streams the
bytes. -/
def zipCoreActs (outDir : FsPath) (e : ZipEntry) : List Action :=
  if endsWithChar e.name '/' then
    [.createDirAll (zipOutPath outDir e.name), .setPerms (zipOutPath outDir e.name)]
  else
    [.createFile (zipOutPath outDir e.name), .setPerms (zipOutPath outDir e.name),
      .writeBytes (zipOutPath outDir e.name) e.body]

/-- All actions of one ZIP entry, in source order: ancestor creation (file
branch only), then the entry's own materialization. -/
def zipEntryActs (fs : List FsPath) (outDir : FsPath) (e : ZipEntry) : List Action :=
  (if endsWithChar e.name '/' then []
   else parentActs fs (zipOutPath outDir e.name)) ++ zipCoreActs outDir e

/-- Filesystem contents after extracting one ZIP entry. -/
def fsAfterZipEntry (fs : List FsPath) (outDir : FsPath) (e : ZipEntry) : List FsPath :=
  if endsWithChar e.name '/' then fs ++ dirTreePaths (zipOutPath outDir e.name)
  else fsAfterParent fs (zipOutPath outDir e.name) ++ [zipOutPath outDir e.name]

/-- The per-entry loop of `extract_zip` (src/main.rs lines 314-346): extract
entry `i`, then send the progress event `((i+1)/total, false)`. -/
def zipLoop (outDir : FsPath) (total : Nat) :
    List FsPath → Nat → List ZipEntry → List Action
  | _, _, [] => []
  | fs, i, e :: rest =>
    zipEntryActs fs outDir e ++ [.sendProgress (i + 1) total false]
      ++ zipLoop outDir total (fsAfterZipEntry fs outDir e) (i + 1) rest

/-- `extract_zip` (src/main.rs lines 302-351): stat the output directory and
fail with `ReadOnlyOutput` if it is read-only; open the archive (failing on a
corrupt one); per entry materialize it and send `((i+1)/total, false)`; after
the loop send the terminal `(1.0, true)` event. -/
def extract_zip (w : World) : List Action × Except ExtractErr Unit :=
  if w.readOnly then ([.statOutput], .error .readOnlyOutput)
  else if w.corrupt then ([.statOutput, .openArchive], .error .corruptArchive)
  else
    ([.statOutput, .openArchive]
        ++ zipLoop w.outDir w.zipEntries.length w.fs0 0 w.zipEntries
        ++ [.sendProgress 1 1 true],
      .ok ())

/-! ### `extract_tar_gz` (src/main.rs lines 429-477) -/

/-- The actions that materialize one TAR entry itself (src/main.rs lines
454-473): directory branch creates the directory and clears its read-only
bit; file branch unpacks (creates and writes) the file then clears its
read-only bit. -/
def tarCoreActs (outDir : FsPath) (e : TarEntry) : List Action :=
  if e.isDir then
    [.createDirAll (tarOutPath outDir e.path), .setPerms (tarOutPath outDir e.path)]
  else
    [.writeBytes (tarOutPath outDir e.path) e.body, .setPerms (tarOutPath outDir e.path)]

/-- Filesystem contents after extracting one TAR entry. -/
def fsAfterTarEntry (fs : List FsPath) (outDir : FsPath) (e : TarEntry) : List FsPath :=
  if e.isDir then fs ++ dirTreePaths (tarOutPath outDir e.path)
  else fsAfterParent fs (tarOutPath outDir e.path) ++ [tarOutPath outDir e.path]

/-- The per-entry loop of `extract_tar_gz` (src/main.rs lines 446-474): send
the progress event `((i+1)/total, false)` first, then materialize entry `i`.
No terminal event follows the loop. -/
def tarLoop (outDir : FsPath) (total : Nat) :
    List FsPath → Nat → List TarEntry → List Action
  | _, _, [] => []
  | fs, i, e :: rest =>
    .sendProgress (i + 1) total false
      :: ((if e.isDir then [] else parentActs fs (tarOutPath outDir e.path))
          ++ tarCoreActs outDir e
          ++ tarLoop outDir total (fsAfterTarEntry fs outDir e) (i + 1) rest)

/-- `extract_tar_gz` (src/main.rs lines 429-477): stat the output directory
and fail with `ReadOnlyOutput` if it is read-only; open and enumerate the
archive (failing on a corrupt one); per entry send `((i+1)/total, false)` and
then materialize it.  The function returns without sending any terminal
event. -/
def extract_tar_gz (w : World) : List Action × Except ExtractErr Unit :=
  if w.readOnly then ([.statOutput], .error .readOnlyOutput)
  else if w.corrupt then ([.statOutput, .openArchive], .error .corruptArchive)
  else
    ([.statOutput, .openArchive]
        ++ tarLoop w.outDir w.tarEntries.length w.fs0 0 w.tarEntries,
      .ok ())

/-! ### Listing (`list_archive_contents`, src/main.rs lines 384-427) and the
GUI dispatch/selection handlers -/

/-- The catalog row content for a ZIP entry (src/main.rs lines 395-401): for
names ending in `".txt"` the whole body decoded lossily as UTF-8, otherwise a
type/size summary built without reading the body. -/
def zipRowContent (e : ZipEntry) : String :=
  if endsWithStr e.name ".txt" then (utf8Lossy e.body).asString
  else "Type: " ++ get_file_type e.name ++ " | Size: " ++ toString e.size ++ " bytes"

/-- The archive reads performed for one ZIP entry during listing: the body is
read only in the `".txt"` branch. -/
def zipRowActs (e : ZipEntry) : List Action :=
  if endsWithStr e.name ".txt" then [.readBody e.name] else []

/-- The catalog row content for a TAR entry (src/main.rs lines 413-419). -/
def tarRowContent (e : TarEntry) : String :=
  if endsWithStr e.path ".txt" then (utf8Lossy e.body).asString
  else "Type: " ++ get_file_type e.path ++ " | Size: " ++ toString e.size ++ " bytes"

/-- The archive reads performed for one TAR entry during listing. -/
def tarRowActs (e : TarEntry) : List Action :=
  if endsWithStr e.path ".txt" then [.readBody e.path] else []

/-- `list_archive_contents` (src/main.rs lines 384-427): dispatch on the
path's extension — `"zip"` and `"gz"` open the archive and build one
`(name, content)` row per entry; any other extension is rejected with the
unsupported-format error before any I/O. -/
def list_archive_contents (w : World) :
    List Action × Except ExtractErr (List (String × String)) :=
  match pathExtension w.inputPath with
  | some "zip" =>
    if w.corrupt then ([.openArchive], .error .corruptArchive)
    else
      ([.openArchive] ++ w.zipEntries.flatMap zipRowActs,
        .ok (w.zipEntries.map (fun e => (e.name, zipRowContent e))))
  | some "gz" =>
    if w.corrupt then ([.openArchive], .error .corruptArchive)
    else
      ([.openArchive] ++ w.tarEntries.flatMap tarRowActs,
        .ok (w.tarEntries.map (fun e => (e.path, tarRowContent e))))
  | _ => ([], .error .unsupportedFormat)

/-- The format dispatch of the extraction worker (src/main.rs lines 186-190):
`"zip"` runs `extract_zip`, `"gz"` runs `extract_tar_gz`, anything else fails
with the unsupported-format error without calling either. -/
def updateExtract (w : World) : List Action × Except ExtractErr Unit :=
  match pathExtension w.inputPath with
  | some "zip" => extract_zip w
  | some "gz" => extract_tar_gz w
  | _ => ([], .error .unsupportedFormat)

/-- Status colors used by the GUI. -/
inductive StatusColor where
  | white
  | red
  | green
deriving DecidableEq

/-- The GUI state fields touched by archive selection (src/main.rs lines
66-94). -/
structure AppState where
  inputFile : Option String
  status : String
  statusColor : StatusColor
  fileList : List (String × String × String)
deriving DecidableEq

/-- Model of `Result::unwrap_or_default` on a listing result: the rows on
success, the empty catalog on error. -/
def rowsOrDefault (r : Except ExtractErr (List (String × String))) :
    List (String × String) :=
  match r with
  | .ok rows => rows
  | .error _ => []

/-- The file-selection handler (src/main.rs lines 142-150): list the archive,
fall back to the empty catalog on any listing error (`unwrap_or_default`),
and tag each row with its classification.  The status message and color are
not touched. -/
def selectArchive (app : AppState) (w : World) : AppState :=
  { app with
    inputFile := some w.inputPath,
    fileList :=
      (rowsOrDefault (list_archive_contents w).2).map
        (fun row => (row.1, get_file_type row.1, row.2)) }

/-! ### Concrete worlds used as witnesses and counterexamples -/

/-- A writable output directory `out/`. -/
def outP : FsPath := FsPath.mk false ["out"]

/-- The initial app state (src/main.rs `UnzipApp::default`). -/
def app0 : AppState := AppState.mk none "Ready" .white []

/-- A gzip-TAR job with a single regular-file entry `a.txt` (bytes "hi"). -/
def wTar1 : World :=
  World.mk "a.tar.gz" outP false false [] [TarEntry.mk "a.txt" false [104, 105] 2] [outP]

/-- A ZIP job with a single file entry `a.txt` (bytes "hi"). -/
def wZip1 : World :=
  World.mk "a.zip" outP false false [ZipEntry.mk "a.txt" [104, 105] 2] [] [outP]

/-- A ZIP job whose archive holds zero entries. -/
def wZip0 : World := World.mk "a.zip" outP false false [] [] [outP]

/-- A ZIP listing world with a single entry literally named `txt`. -/
def wZipTxt : World :=
  World.mk "a.zip" outP false false [ZipEntry.mk "txt" [104, 105] 2] [] [outP]

/-- A ZIP listing world with a text entry `readme.txt` (bytes "hello"). -/
def wZipHello : World :=
  World.mk "a.zip" outP false false
    [ZipEntry.mk "readme.txt" [104, 101, 108, 108, 111] 5] [] [outP]

/-- A world whose input path has an unrecognized extension. -/
def wRar : World := World.mk "archive.rar" outP false false [] [] [outP]

/-- A world whose output directory is read-only. -/
def wRO : World :=
  World.mk "a.zip" outP true false [ZipEntry.mk "a.txt" [104, 105] 2]
    [TarEntry.mk "a.txt" false [104, 105] 2] [outP]

/-- A ZIP job with a traversal entry name `../evil.txt`. -/
def wZipEvil : World :=
  World.mk "a.zip" outP false false [ZipEntry.mk "../evil.txt" [104] 1] [] [outP]

/-- A gzip-TAR job with a traversal entry name `../evil.txt`. -/
def wTarEvil : World :=
  World.mk "a.tar.gz" outP false false [] [TarEntry.mk "../evil.txt" false [104] 1] [outP]

/-! ## Theorems -/

theorem splitChar_ne_nil (c : Char) (l : List Char) : splitChar c l ≠ [] := by
  cases l with
  | nil => simp [splitChar]
  | cons x xs =>
    simp only [splitChar]
    split
    · simp
    · split <;> simp

theorem splitChar_of_not_mem {c : Char} {l : List Char} (h : c ∉ l) :
    splitChar c l = [l] := by
  induction l with
  | nil => rfl
  | cons x xs ih =>
    have hx : ¬ x = c := by
      intro he
      exact h (he ▸ List.mem_cons_self x xs)
    have hxs : c ∉ xs := fun hm => h (List.mem_cons_of_mem x hm)
    simp [splitChar, hx, ih hxs]

theorem two_le_length_splitChar {c : Char} {l : List Char} (h : c ∈ l) :
    2 ≤ (splitChar c l).length := by
  induction l with
  | nil => simp at h
  | cons x xs ih =>
    by_cases hx : x = c
    · simp only [splitChar, if_pos hx, List.length_cons]
      have hne := splitChar_ne_nil c xs
      have : 1 ≤ (splitChar c xs).length := by
        cases hsp : splitChar c xs with
        | nil => exact absurd hsp hne
        | cons a t => simp
      omega
    · have hc : c ∈ xs := by
        rcases List.mem_cons.mp h with h1 | h2
        · exact absurd h1.symm hx
        · exact h2
      have h2 := ih hc
      simp only [splitChar, if_neg hx]
      cases hsp : splitChar c xs with
      | nil => exact absurd hsp (splitChar_ne_nil c xs)
      | cons s ss =>
        rw [hsp] at h2
        simp only [List.length_cons] at h2 ⊢
        omega

/-- `split(c).last()` is exactly the suffix after the last occurrence of `c`
(the whole string when `c` does not occur). -/
theorem getLast?_splitChar (c : Char) (l : List Char) :
    (splitChar c l).getLast? = some (afterLast c l) := by
  induction l with
  | nil => rfl
  | cons x xs ih =>
    by_cases hc : c ∈ xs
    · have hrhs : afterLast c (x :: xs) = afterLast c xs := by
        simp [afterLast, hc]
      rw [hrhs, ← ih]
      by_cases hx : x = c
      · have hsp1 : splitChar c (x :: xs) = [] :: splitChar c xs := by
          simp [splitChar, hx]
        rw [hsp1]
        cases hsp : splitChar c xs with
        | nil => exact absurd hsp (splitChar_ne_nil c xs)
        | cons s ss => simp
      · have h2 := two_le_length_splitChar hc
        cases hsp : splitChar c xs with
        | nil => exact absurd hsp (splitChar_ne_nil c xs)
        | cons s ss =>
          have hsp1 : splitChar c (x :: xs) = (x :: s) :: ss := by
            simp [splitChar, hx, hsp]
          rw [hsp1]
          rw [hsp] at h2
          cases ss with
          | nil => simp at h2
          | cons s2 ss2 => simp
    · have hsp := splitChar_of_not_mem hc
      by_cases hx : x = c
      · have h1 : splitChar c (x :: xs) = [[], xs] := by
          simp [splitChar, hx, hsp]
        have h2 : afterLast c (x :: xs) = xs := by
          subst hx
          simp [afterLast, hc]
        rw [h1, h2]
        rfl
      · have h1 : splitChar c (x :: xs) = [x :: xs] := by
          simp [splitChar, hx, hsp]
        have h2 : afterLast c (x :: xs) = x :: xs := by
          simp [afterLast, hc, hx]
        rw [h1, h2]
        rfl

/-- The suffix after the last `c` in `l ++ c :: m` is `m` when `c ∉ m`. -/
theorem afterLast_append {c : Char} (l : List Char) {m : List Char}
    (h : c ∉ m) : afterLast c (l ++ c :: m) = m := by
  induction l with
  | nil => simp [afterLast, h]
  | cons x xs ih =>
    have hmem : c ∈ xs ++ c :: m :=
      List.mem_append_right _ (List.mem_cons_self c m)
    simp [afterLast, hmem, ih]

theorem get_file_type_eq_classifySpec (s : String) :
    get_file_type s = classifySpec s := by
  unfold get_file_type classifySpec
  by_cases h : endsWithChar s '/'
  · simp [h]
  · simp only [h, Bool.false_eq_true, if_false]
    rw [getLast?_splitChar]
    rfl

/-! ### Trace structure lemmas for the extraction loops -/

theorem parentActs_no_progress (fs : List FsPath) (p : FsPath) :
    ∀ a ∈ parentActs fs p, a.isProgress = false := by
  intro a ha
  unfold parentActs at ha
  rcases hp : p.parentDir? with _ | par
  · rw [hp] at ha
    simp at ha
  · rw [hp] at ha
    by_cases hm : par ∈ fs
    · simp [hm] at ha
    · simp [hm] at ha
      rcases ha with h | h <;> subst h <;> rfl

theorem zipCoreActs_no_progress (outDir : FsPath) (e : ZipEntry) :
    ∀ a ∈ zipCoreActs outDir e, a.isProgress = false := by
  intro a ha
  unfold zipCoreActs at ha
  by_cases hd : endsWithChar e.name '/'
  · simp [hd] at ha
    rcases ha with h | h <;> subst h <;> rfl
  · simp [hd] at ha
    rcases ha with h | h | h <;> subst h <;> rfl

theorem zipEntryActs_no_progress (fs : List FsPath) (outDir : FsPath) (e : ZipEntry) :
    ∀ a ∈ zipEntryActs fs outDir e, a.isProgress = false := by
  intro a ha
  unfold zipEntryActs at ha
  rcases List.mem_append.mp ha with h | h
  · by_cases hd : endsWithChar e.name '/'
    · simp [hd] at h
    · rw [if_neg hd] at h
      exact parentActs_no_progress fs _ a h
  · exact zipCoreActs_no_progress outDir e a h

theorem tarCoreActs_no_progress (outDir : FsPath) (e : TarEntry) :
    ∀ a ∈ tarCoreActs outDir e, a.isProgress = false := by
  intro a ha
  unfold tarCoreActs at ha
  by_cases hd : e.isDir
  · simp [hd] at ha
    rcases ha with h | h <;> subst h <;> rfl
  · simp [hd] at ha
    rcases ha with h | h <;> subst h <;> rfl

/-- The progress events of the ZIP per-entry loop, in order: exactly one
non-terminal event per entry with numerator `i+k+1`. -/
theorem zipLoop_filter_progress (outDir : FsPath) (total : Nat) :
    ∀ (es : List ZipEntry) (fs : List FsPath) (i : Nat),
      (zipLoop outDir total fs i es).filter Action.isProgress
        = (List.range es.length).map
            (fun k => Action.sendProgress (i + k + 1) total false) := by
  intro es
  induction es with
  | nil =>
    intro fs i
    simp [zipLoop]
  | cons e rest ih =>
    intro fs i
    have hacts : (zipEntryActs fs outDir e).filter Action.isProgress = [] :=
      List.filter_eq_nil_iff.mpr (by
        intro a ha
        simp [zipEntryActs_no_progress fs outDir e a ha])
    simp only [zipLoop, List.filter_append, hacts, List.nil_append,
      List.filter_cons, List.filter_nil]
    rw [ih (fsAfterZipEntry fs outDir e) (i + 1)]
    simp only [Action.isProgress, List.length_cons, List.range_succ_eq_map,
      List.map_cons, List.map_map, if_true, List.singleton_append, Nat.add_zero]
    congr 1
    apply List.map_congr_left
    intro k _
    simp only [Function.comp]
    congr 1
    omega

/-- The progress events of the TAR per-entry loop, in order: exactly one
non-terminal event per entry with numerator `i+k+1`, and no terminal event. -/
theorem tarLoop_filter_progress (outDir : FsPath) (total : Nat) :
    ∀ (es : List TarEntry) (fs : List FsPath) (i : Nat),
      (tarLoop outDir total fs i es).filter Action.isProgress
        = (List.range es.length).map
            (fun k => Action.sendProgress (i + k + 1) total false) := by
  intro es
  induction es with
  | nil =>
    intro fs i
    simp [tarLoop]
  | cons e rest ih =>
    intro fs i
    have hpar : ((if e.isDir then []
        else parentActs fs (tarOutPath outDir e.path)).filter Action.isProgress) = [] :=
      List.filter_eq_nil_iff.mpr (by
        intro a ha
        by_cases hd : e.isDir
        · simp [hd] at ha
        · rw [if_neg hd] at ha
          simp [parentActs_no_progress fs _ a ha])
    have hcore : (tarCoreActs outDir e).filter Action.isProgress = [] :=
      List.filter_eq_nil_iff.mpr (by
        intro a ha
        simp [tarCoreActs_no_progress outDir e a ha])
    simp only [tarLoop, List.filter_cons, List.filter_append, hpar, hcore,
      List.nil_append, Action.isProgress, if_true]
    rw [ih (fsAfterTarEntry fs outDir e) (i + 1)]
    simp only [List.length_cons, List.range_succ_eq_map, List.map_cons,
      List.map_map, Nat.add_zero]
    congr 1
    apply List.map_congr_left
    intro k _
    simp only [Function.comp]
    congr 1
    omega

/-- Decomposition of the ZIP loop trace at entry `j`: the entry's own
materialization actions immediately precede its progress event. -/
theorem zipLoop_decomp (outDir : FsPath) (total : Nat) :
    ∀ (es : List ZipEntry) (fs : List FsPath) (i j : Nat) (e : ZipEntry),
      es[j]? = some e →
      ∃ pre post, zipLoop outDir total fs i es
        = pre ++ zipCoreActs outDir e
            ++ [Action.sendProgress (i + j + 1) total false] ++ post := by
  intro es
  induction es with
  | nil =>
    intro fs i j e h
    simp at h
  | cons e0 rest ih =>
    intro fs i j e h
    cases j with
    | zero =>
      simp only [List.getElem?_cons_zero, Option.some.injEq] at h
      subst h
      refine ⟨(if endsWithChar e0.name '/' then []
          else parentActs fs (zipOutPath outDir e0.name)),
        zipLoop outDir total (fsAfterZipEntry fs outDir e0) (i + 1) rest, ?_⟩
      have harith : i + 0 + 1 = i + 1 := by omega
      simp [zipLoop, zipEntryActs, harith, List.append_assoc]
    | succ j0 =>
      have h0 : rest[j0]? = some e := by simpa using h
      obtain ⟨pre, post, hp⟩ := ih (fsAfterZipEntry fs outDir e0) (i + 1) j0 e h0
      refine ⟨zipEntryActs fs outDir e0
          ++ [Action.sendProgress (i + 1) total false] ++ pre, post, ?_⟩
      have harith : i + 1 + j0 + 1 = i + (j0 + 1) + 1 := by omega
      simp only [zipLoop, hp, harith, List.append_assoc]

/-- Decomposition of the TAR loop trace at entry `j`: the entry's progress
event precedes all of its materialization actions (only ancestor-creation
actions, which never send progress, sit between the two). -/
theorem tarLoop_decomp (outDir : FsPath) (total : Nat) :
    ∀ (es : List TarEntry) (fs : List FsPath) (i j : Nat) (e : TarEntry),
      es[j]? = some e →
      ∃ pre mid post, tarLoop outDir total fs i es
        = pre ++ [Action.sendProgress (i + j + 1) total false]
            ++ mid ++ tarCoreActs outDir e ++ post
        ∧ ∀ a ∈ mid, a.isProgress = false := by
  intro es
  induction es with
  | nil =>
    intro fs i j e h
    simp at h
  | cons e0 rest ih =>
    intro fs i j e h
    cases j with
    | zero =>
      simp only [List.getElem?_cons_zero, Option.some.injEq] at h
      subst h
      refine ⟨[], (if e0.isDir then [] else parentActs fs (tarOutPath outDir e0.path)),
        tarLoop outDir total (fsAfterTarEntry fs outDir e0) (i + 1) rest, ?_, ?_⟩
      · have harith : i + 0 + 1 = i + 1 := by omega
        simp [tarLoop, harith, List.append_assoc]
      · intro a ha
        by_cases hd : e0.isDir
        · simp [hd] at ha
        · rw [if_neg hd] at ha
          exact parentActs_no_progress fs _ a ha
    | succ j0 =>
      have h0 : rest[j0]? = some e := by simpa using h
      obtain ⟨pre, mid, post, hp, hmid⟩ :=
        ih (fsAfterTarEntry fs outDir e0) (i + 1) j0 e h0
      refine ⟨Action.sendProgress (i + 1) total false
          :: ((if e0.isDir then [] else parentActs fs (tarOutPath outDir e0.path))
              ++ tarCoreActs outDir e0 ++ pre), mid, post, ?_, hmid⟩
      have harith : i + 1 + j0 + 1 = i + (j0 + 1) + 1 := by omega
      simp only [tarLoop, hp, harith, List.append_assoc, List.cons_append]

/-! ### Claim theorems -/

/-- C3 counterexample: the entry name `"txt"` contains no `'.'` at all, yet
`get_file_type` classifies it as `"text"` (Text), not `"file"` (Generic) —
`split('.').last()` yields the whole name when there is no dot, so dotless
names equal to a known extension do not fall through to Generic. -/
theorem C3_counterexample :
    ('.' ∉ "txt".data) ∧ get_file_type "txt" = "text" ∧ get_file_type "txt" ≠ "file" :=
  ⟨by decide, by decide, by decide⟩

/-- C3 (amended): for a name not ending in a path separator, classification
matches the last `'.'`-separated segment of the name — which is the whole name
when the name contains no `'.'` — case-sensitively against the fixed extension
table, with Generic for no match; so a dotless name equal to a known extension
(such as `"txt"`) classifies as that category rather than Generic. -/
theorem C3_amended : ∀ s : String, get_file_type s = classifySpec s :=
  get_file_type_eq_classifySpec

/-- C8: every entry name ending with the path separator classifies as
`"folder"` regardless of any trailing extension-like substring, and
classification is total and deterministic: every string maps to exactly one
category. -/
theorem C8_folder_total :
    (∀ s : String, endsWithChar s '/' = true → get_file_type s = "folder")
    ∧ (∀ s : String, ∃! cat : String, get_file_type s = cat) := by
  constructor
  · intro s h
    simp [get_file_type, h]
  · intro s
    exact ⟨get_file_type s, rfl, fun c hc => hc.symm⟩

/-- Witness for C8 at the spec's example `"notes.txt/"`. -/
theorem C8_witness :
    endsWithChar "notes.txt/" '/' = true ∧ get_file_type "notes.txt/" = "folder"
      ∧ get_file_type "notes.txt/" ≠ "text" :=
  ⟨by decide, C8_folder_total.1 "notes.txt/" (by decide), by decide⟩

/-- C5: with a read-only output directory both extraction paths fail
immediately with `ReadOnlyOutput`; the emitted trace is the single stat of the
output directory — no filesystem write and no read of the archive file
happens. -/
theorem C5_readonly :
    ∀ w : World, w.readOnly = true →
      extract_zip w = ([.statOutput], .error .readOnlyOutput)
      ∧ extract_tar_gz w = ([.statOutput], .error .readOnlyOutput)
      ∧ (∀ a ∈ (extract_zip w).1, a.isWriteAct = false ∧ a.isArchiveRead = false)
      ∧ (∀ a ∈ (extract_tar_gz w).1, a.isWriteAct = false ∧ a.isArchiveRead = false) := by
  intro w h
  have hz : extract_zip w = ([.statOutput], .error .readOnlyOutput) := by
    simp [extract_zip, h]
  have ht : extract_tar_gz w = ([.statOutput], .error .readOnlyOutput) := by
    simp [extract_tar_gz, h]
  refine ⟨hz, ht, ?_, ?_⟩
  · rw [hz]
    intro a ha
    simp at ha
    subst ha
    exact ⟨rfl, rfl⟩
  · rw [ht]
    intro a ha
    simp at ha
    subst ha
    exact ⟨rfl, rfl⟩

/-- Witness for C5: a concrete read-only job. -/
theorem C5_witness :
    wRO.readOnly = true
    ∧ extract_zip wRO = ([.statOutput], .error .readOnlyOutput)
    ∧ extract_tar_gz wRO = ([.statOutput], .error .readOnlyOutput) :=
  ⟨rfl, (C5_readonly wRO rfl).1, (C5_readonly wRO rfl).2.1⟩

/-- C6: an input path whose extension is neither `"zip"` nor `"gz"` makes
both listing and extraction fail with the unsupported-format error, with an
empty action trace — the file is never opened. -/
theorem C6_unsupported :
    ∀ w : World, pathExtension w.inputPath ≠ some "zip" →
      pathExtension w.inputPath ≠ some "gz" →
      list_archive_contents w = ([], .error .unsupportedFormat)
      ∧ updateExtract w = ([], .error .unsupportedFormat) := by
  intro w h1 h2
  constructor
  · unfold list_archive_contents
    split
    · rename_i heq
      exact absurd heq h1
    · rename_i heq
      exact absurd heq h2
    · rfl
  · unfold updateExtract
    split
    · rename_i heq
      exact absurd heq h1
    · rename_i heq
      exact absurd heq h2
    · rfl

/-- Witness for C6 at the spec's example `"archive.rar"`. -/
theorem C6_witness :
    pathExtension "archive.rar" = some "rar"
    ∧ list_archive_contents wRar = ([], .error .unsupportedFormat)
    ∧ updateExtract wRar = ([], .error .unsupportedFormat) :=
  ⟨by decide, (C6_unsupported wRar (by decide) (by decide)).1,
    (C6_unsupported wRar (by decide) (by decide)).2⟩

/-- C9: any listing error is swallowed: the catalog shown is empty and the
status message and color are left untouched (no error is surfaced). -/
theorem C9_listing_error_swallowed :
    ∀ (app : AppState) (w : World) (err : ExtractErr),
      (list_archive_contents w).2 = .error err →
      (selectArchive app w).fileList = []
      ∧ (selectArchive app w).status = app.status
      ∧ (selectArchive app w).statusColor = app.statusColor := by
  intro app w err h
  refine ⟨?_, rfl, rfl⟩
  simp [selectArchive, rowsOrDefault, h]

/-- Witness for C9: a failing listing leaves the default state's status
untouched and the catalog empty. -/
theorem C9_witness :
    (list_archive_contents wRar).2 = .error .unsupportedFormat
    ∧ (selectArchive app0 wRar).fileList = []
    ∧ (selectArchive app0 wRar).status = "Ready" :=
  ⟨by rfl,
    (C9_listing_error_swallowed app0 wRar .unsupportedFormat (by rfl)).1,
    (C9_listing_error_swallowed app0 wRar .unsupportedFormat (by rfl)).2.1⟩

/-- C10: extracting a ZIP archive with zero entries from a writable output
directory succeeds with no per-entry filesystem writes, and its progress
stream is exactly the terminal event, whose fraction value is 1. -/
theorem C10_empty_zip :
    ∀ w : World, w.readOnly = false → w.corrupt = false → w.zipEntries = [] →
      (extract_zip w).2 = .ok ()
      ∧ (extract_zip w).1 = [.statOutput, .openArchive, .sendProgress 1 1 true]
      ∧ ((extract_zip w).1.filter Action.isProgress) = [.sendProgress 1 1 true]
      ∧ fracVal 1 1 = 1
      ∧ (∀ a ∈ (extract_zip w).1, a.isWriteAct = false) := by
  intro w h1 h2 h3
  have htr : (extract_zip w).1 = [.statOutput, .openArchive, .sendProgress 1 1 true] := by
    simp [extract_zip, h1, h2, h3, zipLoop]
  refine ⟨by simp [extract_zip, h1, h2], htr, ?_, ?_, ?_⟩
  · rw [htr]
    rfl
  · unfold fracVal
    norm_num
  · rw [htr]
    intro a ha
    simp at ha
    rcases ha with h | h | h <;> subst h <;> rfl

/-- Witness for C10: the concrete empty ZIP job. -/
theorem C10_witness :
    wZip0.zipEntries = []
    ∧ (extract_zip wZip0).1 = [.statOutput, .openArchive, .sendProgress 1 1 true] :=
  ⟨rfl, (C10_empty_zip wZip0 rfl rfl rfl).2.1⟩

/-- C1 (code bug evaluation): a successful gzip-TAR extraction of a one-entry
archive emits no `finished = true` event at all — its whole progress stream
is the single non-terminal `(1/1, false)` event — while the ZIP path on the
same entry does emit exactly one terminal `(1.0, true)` event.  The claimed
terminal event is missing from the gzip-TAR path (src/main.rs lines 474-476
return without the final send that lines 348-349 perform for ZIP). -/
theorem C1_tar_no_terminal_event :
    (extract_tar_gz wTar1).2 = .ok ()
    ∧ ((extract_tar_gz wTar1).1.filter Action.isProgress) = [.sendProgress 1 1 false]
    ∧ ((extract_tar_gz wTar1).1.countP Action.isFinished) = 0
    ∧ ((extract_zip wZip1).1.filter Action.isFinished) = [.sendProgress 1 1 true] :=
  ⟨by rfl, by decide, by decide, by decide⟩

/-! ### Path sanitization lemmas (claim C4) -/

/-- `normStack` is plain concatenation on dot-free component lists. -/
theorem normStack_no_dots :
    ∀ (l : List String), (∀ comp ∈ l, comp ≠ "." ∧ comp ≠ "..") →
      ∀ acc, normStack acc l = acc ++ l := by
  intro l
  induction l with
  | nil =>
    intro _ acc
    simp [normStack]
  | cons c rest ih =>
    intro h acc
    have hc := h c (List.mem_cons_self c rest)
    have hrest : ∀ comp ∈ rest, comp ≠ "." ∧ comp ≠ ".." :=
      fun x hx => h x (List.mem_cons_of_mem c hx)
    have h1 : (c == ".") = false := by simp [hc.1]
    have h2 : (c == "..") = false := by simp [hc.2]
    simp [normStack, h1, h2, ih hrest]

/-- The components `mangled_name` keeps are never `"."` or `".."`. -/
theorem mangledName_comps_clean (name : String) :
    ∀ comp ∈ (mangledName name).comps, comp ≠ "." ∧ comp ≠ ".." := by
  intro comp hc
  unfold mangledName at hc
  simp only [List.mem_filter, Bool.not_eq_eq_eq_not, Bool.not_true, Bool.or_eq_false_iff,
    beq_eq_false_iff_ne, ne_eq] at hc
  exact ⟨hc.2.1.2, hc.2.2⟩

/-- The ZIP output path never escapes the output directory: `mangled_name`
drops every non-normal component before the join, so for any output directory
without dot components the resolved path stays inside its subtree. -/
theorem zipOutPath_isUnder (outDir : FsPath)
    (hclean : ∀ comp ∈ outDir.comps, comp ≠ "." ∧ comp ≠ "..")
    (name : String) :
    (zipOutPath outDir name).isUnder outDir = true := by
  have hall : ∀ comp ∈ outDir.comps ++ (mangledName name).comps,
      comp ≠ "." ∧ comp ≠ ".." := by
    intro c hc
    rcases List.mem_append.mp hc with h | h
    · exact hclean c h
    · exact mangledName_comps_clean name c h
  have hjoin : zipOutPath outDir name
      = FsPath.mk outDir.absolute (outDir.comps ++ (mangledName name).comps) := by
    unfold zipOutPath FsPath.join
    rfl
  unfold FsPath.isUnder FsPath.normalize
  rw [hjoin]
  simp only [normStack_no_dots _ hall [], normStack_no_dots _ hclean [],
    List.nil_append]
  simp [List.take_left]

/-- C4 counterexample: a ZIP entry named `../evil.txt` is not joined onto the
output directory as-is: `mangled_name` strips the `..`, the resolved path is
`out/evil.txt`, it stays inside the output directory's subtree, and that is
the path the extraction trace creates. -/
theorem C4_zip_traversal_sanitized :
    zipOutPath outP "../evil.txt" = FsPath.mk false ["out", "evil.txt"]
    ∧ (zipOutPath outP "../evil.txt").isUnder outP = true
    ∧ Action.createFile (FsPath.mk false ["out", "evil.txt"]) ∈ (extract_zip wZipEvil).1 :=
  ⟨by decide, by decide, by decide⟩

/-- C4 (amended): only the gzip-TAR path joins entry names onto the output
directory as-is, so a `..` segment or an absolute entry path resolves outside
the output directory's subtree there; the ZIP path sanitizes the name first
(`mangled_name` drops every `..`, `.` and root component), so its resolved
output path always stays inside the output directory. -/
theorem C4_amended :
    (∀ outDir : FsPath, (∀ comp ∈ outDir.comps, comp ≠ "." ∧ comp ≠ "..") →
        ∀ name : String, (zipOutPath outDir name).isUnder outDir = true)
    ∧ tarOutPath outP "../evil.txt" = FsPath.mk false ["out", "..", "evil.txt"]
    ∧ (tarOutPath outP "../evil.txt").isUnder outP = false
    ∧ tarOutPath outP "/etc/passwd" = parsePath "/etc/passwd"
    ∧ (tarOutPath outP "/etc/passwd").isUnder outP = false
    ∧ Action.writeBytes (FsPath.mk false ["out", "..", "evil.txt"]) [104]
        ∈ (extract_tar_gz wTarEvil).1 :=
  ⟨zipOutPath_isUnder, by decide, by decide, by decide, by decide, by decide⟩

/-- Witness for C4 at a concrete output directory and traversal name. -/
theorem C4_witness :
    (∀ comp ∈ outP.comps, comp ≠ "." ∧ comp ≠ "..")
    ∧ (zipOutPath outP "../../etc/passwd").isUnder outP = true :=
  ⟨by decide, C4_amended.1 outP (by decide) "../../etc/passwd"⟩

/-! ### Preview lemmas (claim C7) -/

/-- A name whose characters end in `".txt"` classifies as `"text"`: its last
`'.'`-separated segment is exactly `txt`. -/
theorem get_file_type_of_txt_suffix (s : String) (t : List Char)
    (ht : s.data = t ++ '.' :: ['t', 'x', 't']) : get_file_type s = "text" := by
  have hslash : endsWithChar s '/' = false := by
    unfold endsWithChar
    rw [ht, List.getLast?_append_cons]
    decide
  have hafter : afterLast '.' s.data = ['t', 'x', 't'] := by
    rw [ht]
    exact afterLast_append t (by decide)
  rw [get_file_type_eq_classifySpec]
  unfold classifySpec
  simp only [hslash, Bool.false_eq_true, if_false, hafter]
  decide

/-- `ends_with(".txt")` gives the suffix decomposition of the name. -/
theorem txt_suffix_decomp {s : String} (h : endsWithStr s ".txt" = true) :
    ∃ t, s.data = t ++ '.' :: ['t', 'x', 't'] := by
  unfold endsWithStr at h
  obtain ⟨t, ht⟩ := List.isSuffixOf_iff_suffix.mp h
  exact ⟨t, ht.symm⟩

/-- C7 counterexample: the entry literally named `txt` classifies as Text,
yet its preview is the type/size summary, not the decoded body — the listing
branch tests `ends_with(".txt")`, not the category — and its bytes are never
read (the listing trace is just the archive open). -/
theorem C7_text_category_summary_preview :
    get_file_type "txt" = "text"
    ∧ (list_archive_contents wZipTxt).2 = .ok [("txt", "Type: text | Size: 2 bytes")]
    ∧ (list_archive_contents wZipTxt).1 = [.openArchive]
    ∧ "Type: text | Size: 2 bytes" ≠ (utf8Lossy [104, 105]).asString := by
  refine ⟨by decide, by rfl, by decide, by decide⟩

/-- C7 (amended): the body-preview branch is selected by the entry name ending
in `".txt"`, not by its category: for such names the preview is the whole body
decoded as UTF-8 with lossy replacement (and the name's category is indeed
Text); for every other name — including Text-categorized names such as `txt`
itself — the preview is exactly `"Type: {category} | Size: {size} bytes"` and
the entry's bytes are not read. -/
theorem C7_amended :
    (∀ e : ZipEntry, endsWithStr e.name ".txt" = true →
        zipRowContent e = (utf8Lossy e.body).asString ∧ get_file_type e.name = "text")
    ∧ (∀ e : ZipEntry, endsWithStr e.name ".txt" = false →
        zipRowContent e
          = "Type: " ++ get_file_type e.name ++ " | Size: " ++ toString e.size ++ " bytes")
    ∧ (∀ e : TarEntry, endsWithStr e.path ".txt" = true →
        tarRowContent e = (utf8Lossy e.body).asString ∧ get_file_type e.path = "text")
    ∧ (∀ e : TarEntry, endsWithStr e.path ".txt" = false →
        tarRowContent e
          = "Type: " ++ get_file_type e.path ++ " | Size: " ++ toString e.size ++ " bytes")
    ∧ (∀ w : World, pathExtension w.inputPath = some "zip" → w.corrupt = false →
        (list_archive_contents w).2
          = .ok (w.zipEntries.map (fun e => (e.name, zipRowContent e)))
        ∧ (∀ n, Action.readBody n ∈ (list_archive_contents w).1 →
            ∃ e ∈ w.zipEntries, e.name = n ∧ endsWithStr e.name ".txt" = true))
    ∧ (∀ w : World, pathExtension w.inputPath = some "gz" → w.corrupt = false →
        (list_archive_contents w).2
          = .ok (w.tarEntries.map (fun e => (e.path, tarRowContent e)))
        ∧ (∀ n, Action.readBody n ∈ (list_archive_contents w).1 →
            ∃ e ∈ w.tarEntries, e.path = n ∧ endsWithStr e.path ".txt" = true)) := by
  refine ⟨?_, ?_, ?_, ?_, ?_, ?_⟩
  · intro e htxt
    obtain ⟨t, ht⟩ := txt_suffix_decomp htxt
    exact ⟨by simp [zipRowContent, htxt], get_file_type_of_txt_suffix e.name t ht⟩
  · intro e htxt
    simp [zipRowContent, htxt]
  · intro e htxt
    obtain ⟨t, ht⟩ := txt_suffix_decomp htxt
    exact ⟨by simp [tarRowContent, htxt], get_file_type_of_txt_suffix e.path t ht⟩
  · intro e htxt
    simp [tarRowContent, htxt]
  · intro w hext hcor
    have hl : list_archive_contents w
        = ([.openArchive] ++ w.zipEntries.flatMap zipRowActs,
            .ok (w.zipEntries.map (fun e => (e.name, zipRowContent e)))) := by
      unfold list_archive_contents
      split <;> simp_all
    refine ⟨by rw [hl], ?_⟩
    intro n hn
    rw [hl] at hn
    simp only [List.cons_append, List.nil_append, List.mem_cons] at hn
    rcases hn with h | h
    · exact absurd h (by simp)
    · obtain ⟨e, he, hm⟩ := List.mem_flatMap.mp h
      by_cases htxt : endsWithStr e.name ".txt"
      · simp [zipRowActs, htxt] at hm
        exact ⟨e, he, hm.symm, htxt⟩
      · simp [zipRowActs, htxt] at hm
  · intro w hext hcor
    have hl : list_archive_contents w
        = ([.openArchive] ++ w.tarEntries.flatMap tarRowActs,
            .ok (w.tarEntries.map (fun e => (e.path, tarRowContent e)))) := by
      unfold list_archive_contents
      split <;> simp_all
    refine ⟨by rw [hl], ?_⟩
    intro n hn
    rw [hl] at hn
    simp only [List.cons_append, List.nil_append, List.mem_cons] at hn
    rcases hn with h | h
    · exact absurd h (by simp)
    · obtain ⟨e, he, hm⟩ := List.mem_flatMap.mp h
      by_cases htxt : endsWithStr e.path ".txt"
      · simp [tarRowActs, htxt] at hm
        exact ⟨e, he, hm.symm, htxt⟩
      · simp [tarRowActs, htxt] at hm

/-- Witness for C7 at the concrete world with `readme.txt` ("hello"). -/
theorem C7_witness :
    endsWithStr "readme.txt" ".txt" = true
    ∧ zipRowContent (ZipEntry.mk "readme.txt" [104, 101, 108, 108, 111] 5) = "hello"
    ∧ get_file_type "readme.txt" = "text"
    ∧ (list_archive_contents wZipHello).2 = .ok [("readme.txt", "hello")] := by
  have h := C7_amended.1 (ZipEntry.mk "readme.txt" [104, 101, 108, 108, 111] 5) (by decide)
  have h2 := (C7_amended.2.2.2.2.1 wZipHello (by decide) rfl).1
  refine ⟨by decide, ?_, h.2, ?_⟩
  · rw [h.1]
    decide
  · rw [h2]
    rfl

/-- C2 counterexample: in the gzip-TAR path the progress event of the sole
entry is emitted before the entry's bytes are written: the trace places the
`(1/1, false)` event with no preceding filesystem write, and the entry's
`writeBytes` only after it. -/
theorem C2_tar_progress_before_write :
    ∃ pre post,
      (extract_tar_gz wTar1).1 = pre ++ [Action.sendProgress 1 1 false] ++ post
      ∧ (∀ a ∈ pre, a.isWriteAct = false)
      ∧ Action.writeBytes (FsPath.mk false ["out", "a.txt"]) [104, 105] ∈ post := by
  refine ⟨[.statOutput, .openArchive],
    [.writeBytes (FsPath.mk false ["out", "a.txt"]) [104, 105],
      .setPerms (FsPath.mk false ["out", "a.txt"])], by decide, by decide, by decide⟩

/-- Non-terminal filtering factors through progress filtering. -/
theorem filter_nonTerminal_eq (l : List Action) :
    l.filter Action.isNonTerminal
      = (l.filter Action.isProgress).filter Action.isNonTerminal := by
  rw [List.filter_filter]
  apply List.filter_congr
  intro a _
  cases a <;> simp [Action.isProgress, Action.isNonTerminal]

/-- The fraction values 1/n, …, n/n are strictly increasing. -/
theorem pairwise_fracVal (n : Nat) :
    List.Pairwise (· < ·) ((List.range n).map (fun k => fracVal (k + 1) n)) := by
  rcases Nat.eq_zero_or_pos n with h | h
  · subst h
    simp
  · rw [List.pairwise_map]
    refine (List.pairwise_lt_range n).imp ?_
    intro a b hab
    unfold fracVal
    have hn : (0 : ℚ) < (n : ℚ) := by exact_mod_cast h
    rw [div_lt_div_iff_of_pos_right hn]
    have hs : a + 1 < b + 1 := by omega
    exact_mod_cast hs

/-- C2 (amended): a successful extraction of an archive with N entries emits,
on both paths, exactly N non-terminal progress events with strictly increasing
fractions 1/N, …, N/N (the ZIP path follows them with the terminal event); in
the ZIP path each such event is emitted only after the corresponding entry is
fully materialized (directory created, or file created and its bytes
streamed), whereas in the gzip-TAR path each event is emitted before its
entry's materialization actions. -/
theorem C2_amended :
    ∀ w : World, w.readOnly = false → w.corrupt = false →
      (((extract_zip w).1.filter Action.isProgress)
          = ((List.range w.zipEntries.length).map
              (fun k => Action.sendProgress (k + 1) w.zipEntries.length false))
            ++ [Action.sendProgress 1 1 true])
      ∧ (∀ j e, w.zipEntries[j]? = some e →
          ∃ pre post, (extract_zip w).1
            = pre ++ zipCoreActs w.outDir e
                ++ [Action.sendProgress (j + 1) w.zipEntries.length false] ++ post)
      ∧ List.Pairwise (· < ·)
          (((extract_zip w).1.filter Action.isNonTerminal).map Action.fracOf)
      ∧ (((extract_tar_gz w).1.filter Action.isProgress)
          = (List.range w.tarEntries.length).map
              (fun k => Action.sendProgress (k + 1) w.tarEntries.length false))
      ∧ (∀ j e, w.tarEntries[j]? = some e →
          ∃ pre mid post, (extract_tar_gz w).1
            = pre ++ [Action.sendProgress (j + 1) w.tarEntries.length false]
                ++ mid ++ tarCoreActs w.outDir e ++ post
            ∧ ∀ a ∈ mid, a.isProgress = false)
      ∧ List.Pairwise (· < ·)
          (((extract_tar_gz w).1.filter Action.isNonTerminal).map Action.fracOf) := by
  intro w h1 h2
  have hz1 : (extract_zip w).1
      = [Action.statOutput, Action.openArchive]
          ++ zipLoop w.outDir w.zipEntries.length w.fs0 0 w.zipEntries
          ++ [Action.sendProgress 1 1 true] := by
    simp [extract_zip, h1, h2]
  have ht1 : (extract_tar_gz w).1
      = [Action.statOutput, Action.openArchive]
          ++ tarLoop w.outDir w.tarEntries.length w.fs0 0 w.tarEntries := by
    simp [extract_tar_gz, h1, h2]
  have hzf : (extract_zip w).1.filter Action.isProgress
      = ((List.range w.zipEntries.length).map
          (fun k => Action.sendProgress (k + 1) w.zipEntries.length false))
        ++ [Action.sendProgress 1 1 true] := by
    rw [hz1]
    simp only [List.filter_append, zipLoop_filter_progress]
    simp [Action.isProgress, Nat.zero_add]
  have htf : (extract_tar_gz w).1.filter Action.isProgress
      = (List.range w.tarEntries.length).map
          (fun k => Action.sendProgress (k + 1) w.tarEntries.length false) := by
    rw [ht1]
    simp only [List.filter_append, tarLoop_filter_progress]
    simp [Action.isProgress, Nat.zero_add]
  have hznt : ((extract_zip w).1.filter Action.isNonTerminal).map Action.fracOf
      = (List.range w.zipEntries.length).map
          (fun k => fracVal (k + 1) w.zipEntries.length) := by
    rw [filter_nonTerminal_eq, hzf, List.filter_append]
    have ha : ((List.range w.zipEntries.length).map
        (fun k => Action.sendProgress (k + 1) w.zipEntries.length false)).filter
          Action.isNonTerminal
        = (List.range w.zipEntries.length).map
            (fun k => Action.sendProgress (k + 1) w.zipEntries.length false) := by
      apply List.filter_eq_self.mpr
      intro a hmem
      obtain ⟨k, _, rfl⟩ := List.mem_map.mp hmem
      rfl
    rw [ha]
    simp [Action.isNonTerminal, List.map_map]
    intro a _
    rfl
  have htnt : ((extract_tar_gz w).1.filter Action.isNonTerminal).map Action.fracOf
      = (List.range w.tarEntries.length).map
          (fun k => fracVal (k + 1) w.tarEntries.length) := by
    rw [filter_nonTerminal_eq, htf]
    have ha : ((List.range w.tarEntries.length).map
        (fun k => Action.sendProgress (k + 1) w.tarEntries.length false)).filter
          Action.isNonTerminal
        = (List.range w.tarEntries.length).map
            (fun k => Action.sendProgress (k + 1) w.tarEntries.length false) := by
      apply List.filter_eq_self.mpr
      intro a hmem
      obtain ⟨k, _, rfl⟩ := List.mem_map.mp hmem
      rfl
    rw [ha, List.map_map]
    rfl
  refine ⟨hzf, ?_, ?_, htf, ?_, ?_⟩
  · intro j e hj
    obtain ⟨pre, post, hp⟩ :=
      zipLoop_decomp w.outDir w.zipEntries.length w.zipEntries w.fs0 0 j e hj
    refine ⟨[Action.statOutput, Action.openArchive] ++ pre,
      post ++ [Action.sendProgress 1 1 true], ?_⟩
    rw [hz1, hp]
    simp [List.append_assoc, Nat.zero_add]
  · rw [hznt]
    exact pairwise_fracVal _
  · intro j e hj
    obtain ⟨pre, mid, post, hp, hmid⟩ :=
      tarLoop_decomp w.outDir w.tarEntries.length w.tarEntries w.fs0 0 j e hj
    refine ⟨[Action.statOutput, Action.openArchive] ++ pre, mid, post, ?_, hmid⟩
    rw [ht1, hp]
    simp [List.append_assoc, Nat.zero_add]
  · rw [htnt]
    exact pairwise_fracVal _

/-- Witness for C2 (amended) at the one-entry ZIP job (whose TAR entry list is
empty). -/
theorem C2_witness :
    wZip1.readOnly = false
    ∧ ((extract_zip wZip1).1.filter Action.isProgress)
        = [Action.sendProgress 1 1 false, Action.sendProgress 1 1 true]
    ∧ ((extract_tar_gz wZip1).1.filter Action.isProgress) = [] := by
  have h := C2_amended wZip1 rfl rfl
  refine ⟨rfl, ?_, ?_⟩
  · have h1 := h.1
    simpa [wZip1] using h1
  · have h4 := h.2.2.2.1
    simpa [wZip1] using h4

end UnzipTool
